import Mathlib

/-!
# Verification of the prec_ctrl fixed-point library

A shallow embedding of the `prec_ctrl` C++ library (FixedPoint.h,
FixedPoint/significand.h, FixedPoint/limit.h, double_limit.h,
FixedPointComplex.h, fixed_numeric.h) together with proofs of the
specification's claims about it.

Modelling conventions:
* A `FixedPoint<WIDTH, PLACE>` instance is represented by its integer
  significand (`ℤ`); `WIDTH` and `PLACE` are ordinary integers passed as
  explicit arguments to the operations, mirroring the C++ template
  parameters.
* The real value of a significand `s` at place `p` is the rational
  `s * 2 ^ p` (`valueQ`); conversion of a legal fixed-point value to
  `double` is exact in the library (width is at most 54), so `double`
  results of such conversions are modelled as exact rationals.
* The ambient floating-point rounding mode consulted by `std::nearbyint`
  is modelled as an abstract rounding function `rnd : ℚ → ℤ`; both
  `to_significand` and `limit_precision` take it as a parameter.
* The C++ signed 64-bit arithmetic of the accumulation adders is modelled
  on `ℤ`, with the unsigned-64-bit mask manipulations performed on the
  two's-complement representative `x % 2 ^ 64` as a natural number
  (`int_fast32_t`/`int_fast64_t` are both 64 bits wide on the library's
  reference platform).
-/

namespace PrecCtrl

/-- Two to an integer exponent that is nonnegative in every use
(bit widths and width differences); `(1 << n)` in the C++ sources. -/
def pow2 (i : ℤ) : ℤ := 2 ^ i.toNat

/-- The constant `MAX_SIGNIFICAND_VALUE<WIDTH>` from FixedPoint/significand.h:
`(1 << (WIDTH - 1)) - 1`. -/
def MAX_SIGNIFICAND_VALUE (W : ℤ) : ℤ := pow2 (W - 1) - 1

/-- The constant `MIN_SIGNIFICAND_VALUE<WIDTH>` from FixedPoint/significand.h:
`-MAX_SIGNIFICAND_VALUE<WIDTH>`. -/
def MIN_SIGNIFICAND_VALUE (W : ℤ) : ℤ := -MAX_SIGNIFICAND_VALUE W

/-- The function `clamp<WIDTH>` from FixedPoint/limit.h (also called
`clamp_significand` at its call sites in FixedPoint.h): saturate an
integer into the legal significand range of a width. -/
def clamp (W : ℤ) (i : ℤ) : ℤ :=
  if i > MAX_SIGNIFICAND_VALUE W then MAX_SIGNIFICAND_VALUE W
  else if i < MIN_SIGNIFICAND_VALUE W then MIN_SIGNIFICAND_VALUE W
  else i

/-- The class invariant of `FixedPoint<W, _>`: the significand lies in
`[-(2^(W-1)-1), 2^(W-1)-1]` (the two's-complement minimum is excluded). -/
def legal (W s : ℤ) : Prop :=
  MIN_SIGNIFICAND_VALUE W ≤ s ∧ s ≤ MAX_SIGNIFICAND_VALUE W

instance (W s : ℤ) : Decidable (legal W s) := by
  unfold legal; infer_instance

/-- The real value of a significand at a place, as an exact rational:
`significand * 2 ^ place`.  This is what `operator double()`
(`std::ldexp(significand, PLACE)`) returns, exactly. -/
def valueQ (s : ℤ) (p : ℤ) : ℚ := (s : ℚ) * (2 : ℚ) ^ p

/-- The function `to_significand<WIDTH, PLACE>` from FixedPoint/limit.h:
`clamp<WIDTH>(std::nearbyint(a * std::exp2(-PLACE)))`, with the ambient
rounding mode abstracted as `rnd`. -/
def to_significand (rnd : ℚ → ℤ) (W P : ℤ) (a : ℚ) : ℤ :=
  clamp W (rnd (a * (2 : ℚ) ^ (-P)))

/-- The function `limit_precision` from double_limit.h: scale by `2^-place`, round by
the ambient mode (`rnd` models `std::nearbyint`), clamp to
`[-(2^(width-1)-1), 2^(width-1)-1]` in the double domain, scale back. -/
def limit_precision (rnd : ℚ → ℤ) (a : ℚ) (width place : ℤ) : ℚ :=
  let r : ℚ := (rnd (a * (2 : ℚ) ^ (-place)) : ℚ)
  let MAX_VALUE : ℚ := ((pow2 (width - 1) - 1 : ℤ) : ℚ)
  (if r > MAX_VALUE then MAX_VALUE
   else if r < -MAX_VALUE then -MAX_VALUE
   else r) * (2 : ℚ) ^ place

/-! ## Result-type deduction (FixedPoint.h §type aliases) -/

/-- The function `FixedPoint::superset_width(width2, place2, extra_width)`:
`max(WIDTH + PLACE, width2 + place2) - min(PLACE, place2) + extra_width`. -/
def superset_width (W1 P1 W2 P2 E : ℤ) : ℤ :=
  max (W1 + P1) (W2 + P2) - min P1 P2 + E

/-- The extra MSB bit of `addition_result_t`:
`(PLACE >= WIDTH2 + PLACE2 - 1 || PLACE2 >= WIDTH + PLACE - 1) ? 0 : 1`. -/
def addition_extra (W1 P1 W2 P2 : ℤ) : ℤ :=
  if P1 ≥ W2 + P2 - 1 ∨ P2 ≥ W1 + P1 - 1 then 0 else 1

/-- The width of `addition_result_t<WIDTH2, PLACE2>`. -/
def addition_width (W1 P1 W2 P2 : ℤ) : ℤ :=
  superset_width W1 P1 W2 P2 (addition_extra W1 P1 W2 P2)

/-- The place of `addition_result_t<WIDTH2, PLACE2>`: `min(PLACE, PLACE2)`. -/
def addition_place (P1 P2 : ℤ) : ℤ := min P1 P2

/-- The width of `operator*`'s result type: `WIDTH + WIDTH2 - 1`. -/
def mul_width (W1 W2 : ℤ) : ℤ := W1 + W2 - 1

/-- The place of `operator*`'s result type: `PLACE + PLACE2`. -/
def mul_place (P1 P2 : ℤ) : ℤ := P1 + P2

/-! ## Significand computations of the operations (FixedPoint.h) -/

/-- The significand produced by the clone-from-narrower constructor:
`src.significand << (PLACE_SRC - PLACE)` (requires `PLACE ≤ PLACE_SRC`). -/
def narrow_sig (PS P : ℤ) (s : ℤ) : ℤ := s * pow2 (PS - P)

/-- The significand of `operator+`: both operands are widened into the
addition result type and their significands added. -/
def add_sig (P1 P2 : ℤ) (s1 s2 : ℤ) : ℤ :=
  narrow_sig P1 (addition_place P1 P2) s1 + narrow_sig P2 (addition_place P1 P2) s2

/-- The significand of `operator-`: both operands are widened into the
addition result type and their significands subtracted. -/
def sub_sig (P1 P2 : ℤ) (s1 s2 : ℤ) : ℤ :=
  narrow_sig P1 (addition_place P1 P2) s1 - narrow_sig P2 (addition_place P1 P2) s2

/-- The significand of `operator*`: the product of the significands. -/
def mul_sig (s1 s2 : ℤ) : ℤ := s1 * s2

/-- The significand of unary `operator-`: `-significand`. -/
def neg_sig (s : ℤ) : ℤ := -s

/-! ## Complex multiplication type deduction (FixedPointComplex.h)

`Complex::operator*` computes `re = a*c - b*d` and `im = a*d + b*c`,
where every part of the first operand has type `(W1, P1)` and every part
of the second has type `(W2, P2)`; each scalar product therefore has the
`operator*` result type and the combination the `operator+`/`operator-`
result type (`addition_result_t`, shared by both). -/

/-- Width of the parts of `Complex::operator*`'s result. -/
def complex_mul_width (W1 P1 W2 P2 : ℤ) : ℤ :=
  addition_width (mul_width W1 W2) (mul_place P1 P2)
                 (mul_width W1 W2) (mul_place P1 P2)

/-- Place of the parts of `Complex::operator*`'s result. -/
def complex_mul_place (P1 P2 : ℤ) : ℤ :=
  addition_place (mul_place P1 P2) (mul_place P1 P2)

/-! ## The rounding family (FixedPoint.h, `round_result_t` / `round_common`)

Each rounding function takes a target LSB place `L` and is built from
`round_common`, which either returns the significand unchanged (when the
source place is not finer than the result place) or adds a
function-specific bias and performs an arithmetic shift right by
`result.place - place` bits.  The C++ comment notes the two sign branches
implement `floor(s / 2^shift)`. -/

/-- The place of `round_result_t<EXTRA_WIDTH, LSB_PLACE>`:
`max(PLACE, LSB_PLACE)`. -/
def round_place (P L : ℤ) : ℤ := max P L

/-- The width of `round_result_t<EXTRA_WIDTH, LSB_PLACE>`. -/
def round_width (W P E L : ℤ) : ℤ :=
  if P ≥ L then W
  else if W + P ≤ 1 + L then max 2 (1 + E)
  else W + P + E - L

/-- The two-branch Shift Right Arithmetic of `round_common`:
`s >= 0 ? s >> shift : -(-(s + 1) >> shift) - 1`. -/
def sra (s : ℤ) (n : ℕ) : ℤ :=
  if 0 ≤ s then s / 2 ^ n
  else -((-(s + 1)) / 2 ^ n) - 1

/-- The member `FixedPoint::round_common<EXTRA_WIDTH, LSB_PLACE>(func)`: copy the
significand when no rounding is needed, otherwise apply the adjustment
function and shift right by `result.place - place`. -/
def round_common (P L : ℤ) (func : ℤ → ℤ) (s : ℤ) : ℤ :=
  if P = round_place P L then s
  else sra (func s) (round_place P L - P).toNat

/-- The member `FixedPoint::ceil<LSB_PLACE>`: bias by
`FRAC_MASK = MAX_SIGNIFICAND_VALUE<1 + LSB_PLACE - PLACE>`. -/
def ceil_sig (P L s : ℤ) : ℤ :=
  round_common P L
    (fun t => if P ≥ L then 0 else t + MAX_SIGNIFICAND_VALUE (1 + (L - P))) s

/-- The member `FixedPoint::floor<LSB_PLACE>`: no bias. -/
def floor_sig (P L s : ℤ) : ℤ := round_common P L (fun t => t) s

/-- The member `FixedPoint::trunc<LSB_PLACE>`: bias negative significands by
`FRAC_MASK`. -/
def trunc_sig (P L s : ℤ) : ℤ :=
  round_common P L
    (fun t => if P ≥ L then 0
      else if 0 ≤ t then t else t + MAX_SIGNIFICAND_VALUE (1 + (L - P))) s

/-- The member `FixedPoint::round_half_to_even<LSB_PLACE>`: bias by
`HALF_MINUS_1 = MAX_SIGNIFICAND_VALUE<LSB_PLACE - PLACE>` plus the bit of
the significand at the result's LSB position (an arithmetic shift right
and a mask by 1 on the two's-complement representation). -/
def round_half_to_even_sig (P L s : ℤ) : ℤ :=
  round_common P L
    (fun t => if P ≥ L then 0
      else t + MAX_SIGNIFICAND_VALUE (L - P)
             + (if t / pow2 (L - P) % 2 = 1 then 1 else 0)) s

/-- The member `FixedPoint::round_half_away_from_zero<LSB_PLACE>`: bias by
`HALF = 1 << (LSB_PLACE - PLACE - 1)` minus the sign bit. -/
def round_half_away_from_zero_sig (P L s : ℤ) : ℤ :=
  round_common P L
    (fun t => if P ≥ L then 0
      else t + pow2 (L - P - 1) - (if t < 0 then 1 else 0)) s

/-- The member `FixedPoint::round_half_toward_zero<LSB_PLACE>`: bias by `HALF` minus
the negated sign bit. -/
def round_half_toward_zero_sig (P L s : ℤ) : ℤ :=
  round_common P L
    (fun t => if P ≥ L then 0
      else t + pow2 (L - P - 1) - (if t < 0 then 0 else 1)) s

/-- The member `FixedPoint::round_half_up<LSB_PLACE>`: bias by `HALF`. -/
def round_half_up_sig (P L s : ℤ) : ℤ :=
  round_common P L
    (fun t => if P ≥ L then 0 else t + pow2 (L - P - 1)) s

/-- The member `FixedPoint::round_half_down<LSB_PLACE>`: bias by `HALF_MINUS_1`. -/
def round_half_down_sig (P L s : ℤ) : ℤ :=
  round_common P L
    (fun t => if P ≥ L then 0 else t + MAX_SIGNIFICAND_VALUE (L - P)) s

/-! ## Helper lemmas -/

theorem pow2_pos (i : ℤ) : 0 < pow2 i := by
  unfold pow2; positivity

theorem pow2_le_pow2 {i j : ℤ} (h : i ≤ j) : pow2 i ≤ pow2 j := by
  unfold pow2
  exact pow_le_pow_right₀ (by norm_num) (Int.toNat_le_toNat h)

theorem pow2_cast_q (i : ℤ) (hi : 0 ≤ i) : ((pow2 i : ℤ) : ℚ) = (2 : ℚ) ^ i := by
  unfold pow2
  push_cast
  rw [← zpow_natCast (2 : ℚ) i.toNat, Int.toNat_of_nonneg hi]

theorem valueQ_narrow (PS P : ℤ) (s : ℤ) (h : P ≤ PS) :
    valueQ (narrow_sig PS P s) P = valueQ s PS := by
  unfold valueQ narrow_sig
  push_cast
  rw [pow2_cast_q (PS - P) (by omega), mul_assoc,
      ← zpow_add₀ (two_ne_zero) (PS - P) P]
  ring_nf

theorem sra_eq_ediv (s : ℤ) (n : ℕ) : sra s n = s / 2 ^ n := by
  unfold sra
  split
  · rfl
  · rename_i hs
    have hb : (0 : ℤ) < 2 ^ n := by positivity
    have hq := Int.ediv_add_emod s (2 ^ n)
    have hr0 : 0 ≤ s % 2 ^ n := Int.emod_nonneg s (by positivity)
    have hr1 : s % 2 ^ n < 2 ^ n := Int.emod_lt_of_pos s hb
    have key : (-(s + 1)) / 2 ^ n = -(s / 2 ^ n) - 1 := by
      have h1 : ((-(s + 1)) / 2 ^ n = -(s / 2 ^ n) - 1
          ∧ (-(s + 1)) % 2 ^ n = 2 ^ n - 1 - s % 2 ^ n) := by
        rw [Int.ediv_emod_unique hb]
        refine ⟨by linarith, by omega, by omega⟩
      exact h1.1
    rw [key]
    ring

theorem ediv_two_pow_add (k : ℕ) (a r : ℤ) (h0 : 0 ≤ r) (h1 : r < 2 ^ k) :
    (2 ^ k * a + r) / 2 ^ k = a := by
  have hb : (2 : ℤ) ^ k ≠ 0 := by positivity
  rw [add_comm, Int.add_mul_ediv_left r a hb, Int.ediv_eq_zero_of_lt h0 h1,
      zero_add]

theorem two_pow_split (k : ℕ) (hk : 1 ≤ k) :
    (2 : ℤ) ^ k = 2 ^ (k - 1) + 2 ^ (k - 1) := by
  rw [← two_mul, ← pow_succ']
  congr 1
  omega

theorem pow2_coe_sub_one (k : ℕ) (hk : 1 ≤ k) :
    pow2 ((k : ℤ) - 1) = 2 ^ (k - 1) := by
  unfold pow2
  congr 1
  omega

theorem pow2_coe (k : ℕ) : pow2 (k : ℤ) = 2 ^ k := rfl

/-- The significand of `exp2<EXP>`: unchanged (`result.significand =
significand`); only the place moves to `PLACE + EXP`. -/
def exp2_sig (s : ℤ) : ℤ := s

/-! ## Accumulation adders (fixed_numeric.h)

`significand_t` / `u_significand_t` are 64-bit on the reference platform,
so a signed value is reinterpreted as unsigned by taking its
two's-complement representative modulo `2^64`, and an unsigned value is
reinterpreted as signed by subtracting `2^64` when its top bit is set. -/

/-- A signed 64-bit value's unsigned representative
(`static_cast` of `significand_t` to `u_significand_t`). -/
def toU64 (x : ℤ) : ℕ := (x % 2 ^ 64).toNat

/-- An unsigned 64-bit representative read back as a signed value. -/
def ofU64 (n : ℕ) : ℤ := if n < 2 ^ 63 then (n : ℤ) else (n : ℤ) - 2 ^ 64

/-- The function `int_adder<WIDTH1, WIDTH2, PLACE>` from fixed_numeric.h: add, then
sign-extend from bit `WIDTH1 - 1` (`UMASK = MAX_SIGNIFICAND_VALUE<WIDTH1>`
as unsigned; if `(result & (UMASK+1)) == 0` then `result &= UMASK` else
`result |= ~UMASK`), which wraps the sum as a `WIDTH1`-bit
two's-complement integer. -/
def int_adder (W1 : ℤ) (acc inc : ℤ) : ℤ :=
  let result := acc + inc
  let UMASK : ℕ := 2 ^ (W1 - 1).toNat - 1
  let rep := toU64 result
  if rep &&& (UMASK + 1) = 0 then ofU64 (rep &&& UMASK)
  else ofU64 (rep ||| (2 ^ 64 - 1 - UMASK))

/-- The function `exact_adder<WIDTH1, WIDTH2, PLACE>` from fixed_numeric.h: the sum is
computed exactly in `WIDTH1 + 1` bits; `SIGN_MASK = ~MAX_SIGNIFICAND_VALUE
<WIDTH1>` (as unsigned, `2^64 - 2^(WIDTH1-1)`); if the masked bits are
neither all clear nor all set, `std::range_error("overflow")` is thrown
(no partial result), else the exact sum is returned. -/
def exact_adder (W1 : ℤ) (acc inc : ℤ) : Except String ℤ :=
  let result := acc + inc
  let SIGN_MASK : ℕ := 2 ^ 64 - 1 - (2 ^ (W1 - 1).toNat - 1)
  let rep := toU64 result
  if rep &&& SIGN_MASK ≠ 0 ∧ rep &&& SIGN_MASK ≠ SIGN_MASK then
    Except.error "overflow"
  else Except.ok result

/-- The function `clamp_adder<WIDTH1, WIDTH2, PLACE>` from fixed_numeric.h: the sum is
computed exactly in `WIDTH1 + 1` bits and clamped to `WIDTH1`. -/
def clamp_adder (W1 : ℤ) (acc inc : ℤ) : ℤ := clamp W1 (acc + inc)

theorem one_le_two_pow (n : ℕ) : (1 : ℤ) ≤ 2 ^ n := by
  have h := pow_pos (show (0 : ℤ) < 2 by norm_num) n
  linarith

theorem two_pow_mono {m n : ℕ} (h : m ≤ n) : (2 : ℤ) ^ m ≤ 2 ^ n :=
  pow_le_pow_right₀ (by norm_num) h

theorem legal_iff_abs (W s : ℤ) :
    legal W s ↔ |s| ≤ MAX_SIGNIFICAND_VALUE W := by
  unfold legal MIN_SIGNIFICAND_VALUE
  rw [abs_le]

theorem pow2_double (x : ℤ) (hx : 1 ≤ x) : pow2 x = 2 * pow2 (x - 1) := by
  unfold pow2
  rw [← pow_succ']
  congr 1
  omega

theorem one_le_pow2 (x : ℤ) : (1 : ℤ) ≤ pow2 x := by
  have := pow2_pos x
  linarith

theorem legal_zero (W : ℤ) : legal W 0 := by
  unfold legal MIN_SIGNIFICAND_VALUE MAX_SIGNIFICAND_VALUE
  have := pow2_pos (W - 1)
  constructor <;> linarith

theorem legal_clamp (W v : ℤ) : legal W (clamp W v) := by
  unfold legal clamp MIN_SIGNIFICAND_VALUE MAX_SIGNIFICAND_VALUE
  have := pow2_pos (W - 1)
  split_ifs <;> constructor <;> linarith

theorem legal_neg (W s : ℤ) (h : legal W s) : legal W (neg_sig s) := by
  rw [legal_iff_abs] at h ⊢
  unfold neg_sig
  rwa [abs_neg]

theorem legal_narrow (W WS PS P s : ℤ) (hWS : 2 ≤ WS) (hp : P ≤ PS)
    (hw : WS + PS ≤ W + P) (h : legal WS s) : legal W (narrow_sig PS P s) := by
  rw [legal_iff_abs] at h ⊢
  unfold MAX_SIGNIFICAND_VALUE at h ⊢
  unfold narrow_sig
  obtain ⟨e, he⟩ : ∃ n : ℕ, PS - P = (n : ℤ) := ⟨(PS - P).toNat, by omega⟩
  rw [he, pow2_coe]
  have hws : pow2 (WS - 1) * 2 ^ e ≤ pow2 (W - 1) := by
    unfold pow2
    rw [← pow_add]
    apply two_pow_mono
    omega
  have h1 : |s * 2 ^ e| ≤ (pow2 (WS - 1) - 1) * 2 ^ e := by
    rw [abs_mul, abs_pow]
    have : |(2 : ℤ)| = 2 := by norm_num
    rw [this]
    exact mul_le_mul_of_nonneg_right h (by positivity)
  have h2 : (1 : ℤ) ≤ 2 ^ e := one_le_two_pow e
  nlinarith [pow2_pos (WS - 1)]

theorem add_bound_overlap (a b i j : ℕ) (s1 s2 : ℤ)
    (h1 : |s1| ≤ 2 ^ a - 1) (h2 : |s2| ≤ 2 ^ b - 1) :
    |s1 * 2 ^ i + s2 * 2 ^ j| ≤ 2 ^ (max (a + i) (b + j) + 1) - 2 := by
  have habs2 : |(2 : ℤ)| = 2 := by norm_num
  have e1 : |s1 * 2 ^ i| ≤ 2 ^ (a + i) - 2 ^ i := by
    rw [abs_mul, abs_pow, habs2, pow_add]
    nlinarith [pow_pos (show (0 : ℤ) < 2 by norm_num) i]
  have e2 : |s2 * 2 ^ j| ≤ 2 ^ (b + j) - 2 ^ j := by
    rw [abs_mul, abs_pow, habs2, pow_add]
    nlinarith [pow_pos (show (0 : ℤ) < 2 by norm_num) j]
  have m1 : (2 : ℤ) ^ (a + i) ≤ 2 ^ max (a + i) (b + j) :=
    two_pow_mono (le_max_left _ _)
  have m2 : (2 : ℤ) ^ (b + j) ≤ 2 ^ max (a + i) (b + j) :=
    two_pow_mono (le_max_right _ _)
  have hM : (2 : ℤ) ^ (max (a + i) (b + j) + 1) = 2 ^ max (a + i) (b + j) * 2 :=
    pow_succ 2 _
  have habs := abs_add (s1 * 2 ^ i) (s2 * 2 ^ j)
  have o1 := one_le_two_pow i
  have o2 := one_le_two_pow j
  linarith

theorem add_bound_nooverlap (a b i j : ℕ) (s1 s2 : ℤ) (hno : b + j ≤ i)
    (h1 : |s1| ≤ 2 ^ a - 1) (h2 : |s2| ≤ 2 ^ b - 1) :
    |s1 * 2 ^ i + s2 * 2 ^ j| ≤ 2 ^ (a + i) - 1 := by
  have habs2 : |(2 : ℤ)| = 2 := by norm_num
  have e1 : |s1 * 2 ^ i| ≤ 2 ^ (a + i) - 2 ^ i := by
    rw [abs_mul, abs_pow, habs2, pow_add]
    nlinarith [pow_pos (show (0 : ℤ) < 2 by norm_num) i]
  have e2 : |s2 * 2 ^ j| ≤ 2 ^ (b + j) - 2 ^ j := by
    rw [abs_mul, abs_pow, habs2, pow_add]
    nlinarith [pow_pos (show (0 : ℤ) < 2 by norm_num) j]
  have m : (2 : ℤ) ^ (b + j) ≤ 2 ^ i := two_pow_mono hno
  have habs := abs_add (s1 * 2 ^ i) (s2 * 2 ^ j)
  have o2 := one_le_two_pow j
  linarith

theorem legal_add (W1 P1 W2 P2 s1 s2 : ℤ) (hW1 : 2 ≤ W1) (hW2 : 2 ≤ W2)
    (h1 : legal W1 s1) (h2 : legal W2 s2) :
    legal (addition_width W1 P1 W2 P2) (add_sig P1 P2 s1 s2) := by
  rw [legal_iff_abs] at h1 h2 ⊢
  unfold MAX_SIGNIFICAND_VALUE at h1 h2 ⊢
  obtain ⟨a, ha, ha1⟩ : ∃ n : ℕ, W1 - 1 = (n : ℤ) ∧ 1 ≤ n :=
    ⟨(W1 - 1).toNat, by omega, by omega⟩
  obtain ⟨b, hb, hb1⟩ : ∃ n : ℕ, W2 - 1 = (n : ℤ) ∧ 1 ≤ n :=
    ⟨(W2 - 1).toNat, by omega, by omega⟩
  obtain ⟨i, hi⟩ : ∃ n : ℕ, P1 - addition_place P1 P2 = (n : ℤ) :=
    ⟨(P1 - addition_place P1 P2).toNat, by unfold addition_place; omega⟩
  obtain ⟨j, hj⟩ : ∃ n : ℕ, P2 - addition_place P1 P2 = (n : ℤ) :=
    ⟨(P2 - addition_place P1 P2).toNat, by unfold addition_place; omega⟩
  rw [ha, pow2_coe] at h1
  rw [hb, pow2_coe] at h2
  have hsig : add_sig P1 P2 s1 s2 = s1 * 2 ^ i + s2 * 2 ^ j := by
    unfold add_sig narrow_sig
    rw [hi, hj, pow2_coe, pow2_coe]
  rw [hsig]
  have hmin : addition_place P1 P2 = min P1 P2 := rfl
  by_cases hov : P1 ≥ W2 + P2 - 1 ∨ P2 ≥ W1 + P1 - 1
  · rcases hov with h | h
    · have hAW : addition_width W1 P1 W2 P2 - 1 = ((a + i : ℕ) : ℤ) := by
        unfold addition_width superset_width addition_extra
        rw [if_pos (Or.inl h)]
        push_cast
        omega
      rw [hAW, pow2_coe]
      exact add_bound_nooverlap a b i j s1 s2 (by omega) h1 h2
    · have hAW : addition_width W1 P1 W2 P2 - 1 = ((b + j : ℕ) : ℤ) := by
        unfold addition_width superset_width addition_extra
        rw [if_pos (Or.inr h)]
        push_cast
        omega
      rw [hAW, pow2_coe, add_comm (s1 * 2 ^ i) (s2 * 2 ^ j)]
      exact add_bound_nooverlap b a j i s2 s1 (by omega) h2 h1
  · push_neg at hov
    have hAW : addition_width W1 P1 W2 P2 - 1
        = ((max (a + i) (b + j) + 1 : ℕ) : ℤ) := by
      unfold addition_width superset_width addition_extra
      rw [if_neg (by push_neg; exact hov)]
      push_cast
      omega
    rw [hAW, pow2_coe]
    have hcore := add_bound_overlap a b i j s1 s2 h1 h2
    linarith

theorem legal_sub (W1 P1 W2 P2 s1 s2 : ℤ) (hW1 : 2 ≤ W1) (hW2 : 2 ≤ W2)
    (h1 : legal W1 s1) (h2 : legal W2 s2) :
    legal (addition_width W1 P1 W2 P2) (sub_sig P1 P2 s1 s2) := by
  have h2n : legal W2 (-s2) := by
    rw [legal_iff_abs] at h2 ⊢
    rwa [abs_neg]
  have h := legal_add W1 P1 W2 P2 s1 (-s2) hW1 hW2 h1 h2n
  have hsame : add_sig P1 P2 s1 (-s2) = sub_sig P1 P2 s1 s2 := by
    unfold add_sig sub_sig narrow_sig
    ring
  rwa [hsame] at h

theorem legal_mul (W1 W2 s1 s2 : ℤ) (hW1 : 2 ≤ W1) (hW2 : 2 ≤ W2)
    (h1 : legal W1 s1) (h2 : legal W2 s2) :
    legal (mul_width W1 W2) (mul_sig s1 s2) := by
  rw [legal_iff_abs] at h1 h2 ⊢
  unfold MAX_SIGNIFICAND_VALUE at h1 h2 ⊢
  obtain ⟨a, ha, ha1⟩ : ∃ n : ℕ, W1 - 1 = (n : ℤ) ∧ 1 ≤ n :=
    ⟨(W1 - 1).toNat, by omega, by omega⟩
  obtain ⟨b, hb, hb1⟩ : ∃ n : ℕ, W2 - 1 = (n : ℤ) ∧ 1 ≤ n :=
    ⟨(W2 - 1).toNat, by omega, by omega⟩
  rw [ha, pow2_coe] at h1
  rw [hb, pow2_coe] at h2
  have hMW : mul_width W1 W2 - 1 = ((a + b : ℕ) : ℤ) := by
    unfold mul_width
    push_cast
    omega
  rw [hMW, pow2_coe]
  unfold mul_sig
  have step : |s1 * s2| ≤ (2 ^ a - 1) * (2 ^ b - 1) := by
    rw [abs_mul]
    exact mul_le_mul h1 h2 (abs_nonneg s2) (by linarith [one_le_two_pow a])
  have expand : ((2 : ℤ) ^ a - 1) * (2 ^ b - 1) = 2 ^ (a + b) - 2 ^ a - 2 ^ b + 1 := by
    rw [pow_add]
    ring
  have oa := one_le_two_pow a
  have ob := one_le_two_pow b
  linarith

theorem ediv_bound_small (k w : ℕ) (x : ℤ) (hWk : w ≤ k)
    (hlo : -(2 ^ w - 1) ≤ x) (hhi : x ≤ 2 ^ w - 1 + (2 ^ k - 1)) :
    -1 ≤ x / 2 ^ k ∧ x / 2 ^ k ≤ 1 := by
  have hkpos : (0 : ℤ) < 2 ^ k := by positivity
  have hm : (2 : ℤ) ^ w ≤ 2 ^ k := two_pow_mono hWk
  constructor
  · rw [Int.le_ediv_iff_mul_le hkpos]
    linarith
  · have h2 : x / 2 ^ k < 2 := by
      rw [Int.ediv_lt_iff_lt_mul hkpos]
      linarith
    exact Int.lt_add_one_iff.mp (by linarith)

theorem ediv_bound_big (k w : ℕ) (x : ℤ) (hWk : k ≤ w)
    (hlo : -(2 ^ w - 1) ≤ x) (hhi : x ≤ 2 ^ w - 1 + (2 ^ k - 1)) :
    -(2 ^ (w - k)) ≤ x / 2 ^ k ∧ x / 2 ^ k ≤ 2 ^ (w - k) := by
  have hkpos : (0 : ℤ) < 2 ^ k := by positivity
  have hsplit : (2 : ℤ) ^ (w - k) * 2 ^ k = 2 ^ w := by
    rw [← pow_add]
    congr 1
    omega
  constructor
  · rw [Int.le_ediv_iff_mul_le hkpos]
    nlinarith
  · have h2 : x / 2 ^ k < 2 ^ (w - k) + 1 := by
      rw [Int.ediv_lt_iff_lt_mul hkpos]
      nlinarith
    exact Int.lt_add_one_iff.mp h2

theorem legal_round_biased (W P L s : ℤ) (f : ℤ → ℤ) (hW : 2 ≤ W)
    (hs : legal W s)
    (hbias : P < L → 0 ≤ f s - s ∧ f s - s ≤ pow2 (L - P) - 1) :
    legal (round_width W P 1 L) (round_common P L f s) := by
  by_cases hPL : L ≤ P
  · have hmax : round_place P L = P := max_eq_left hPL
    unfold round_common round_width
    rw [if_pos hmax.symm, if_pos hPL]
    exact hs
  · push_neg at hPL
    obtain ⟨k, hk, hk1⟩ : ∃ n : ℕ, L - P = (n : ℤ) ∧ 1 ≤ n :=
      ⟨(L - P).toNat, by omega, by omega⟩
    obtain ⟨w, hw, hw1⟩ : ∃ n : ℕ, W - 1 = (n : ℤ) ∧ 1 ≤ n :=
      ⟨(W - 1).toNat, by omega, by omega⟩
    have hmax : round_place P L = L := max_eq_right (by omega)
    have hshift : (round_place P L - P).toNat = k := by rw [hmax]; omega
    unfold round_common
    rw [if_neg (by rw [hmax]; omega), hshift, sra_eq_ediv]
    obtain ⟨hb0, hb1⟩ := hbias hPL
    rw [hk, pow2_coe] at hb1
    have hsl : -(2 ^ w - 1) ≤ s ∧ s ≤ 2 ^ w - 1 := by
      rw [legal_iff_abs] at hs
      unfold MAX_SIGNIFICAND_VALUE at hs
      rw [hw, pow2_coe] at hs
      exact abs_le.mp hs
    have hxlo : -(2 ^ w - 1) ≤ f s := by linarith [hsl.1]
    have hxhi : f s ≤ 2 ^ w - 1 + (2 ^ k - 1) := by linarith [hsl.2]
    unfold round_width
    rw [if_neg (show ¬ (P ≥ L) by omega)]
    by_cases hsmall : W + P ≤ 1 + L
    · rw [if_pos hsmall]
      have hb := ediv_bound_small k w (f s) (by omega) hxlo hxhi
      rw [show max (2 : ℤ) (1 + 1) = 2 by norm_num]
      unfold legal MIN_SIGNIFICAND_VALUE MAX_SIGNIFICAND_VALUE pow2
      norm_num
      exact ⟨by linarith [hb.1], hb.2⟩
    · rw [if_neg hsmall]
      have hb := ediv_bound_big k w (f s) (by omega) hxlo hxhi
      have hWPL : W + P + 1 - L - 1 = ((w - k + 1 : ℕ) : ℤ) := by
        push_cast
        omega
      unfold legal MIN_SIGNIFICAND_VALUE MAX_SIGNIFICAND_VALUE
      rw [hWPL, pow2_coe]
      have h2 : (2 : ℤ) ^ (w - k) ≤ 2 ^ (w - k + 1) - 1 := by
        rw [pow_succ]
        have := one_le_two_pow (w - k)
        linarith
      exact ⟨by linarith [hb.1], by linarith [hb.2]⟩

theorem legal_trunc (W P L s : ℤ) (hW : 2 ≤ W) (hs : legal W s) :
    legal (round_width W P 0 L) (trunc_sig P L s) := by
  by_cases hPL : L ≤ P
  · have hmax : round_place P L = P := max_eq_left hPL
    unfold trunc_sig round_common round_width
    rw [if_pos hmax.symm, if_pos hPL]
    exact hs
  · push_neg at hPL
    obtain ⟨k, hk, hk1⟩ : ∃ n : ℕ, L - P = (n : ℤ) ∧ 1 ≤ n :=
      ⟨(L - P).toNat, by omega, by omega⟩
    obtain ⟨w, hw, hw1⟩ : ∃ n : ℕ, W - 1 = (n : ℤ) ∧ 1 ≤ n :=
      ⟨(W - 1).toNat, by omega, by omega⟩
    have hmax : round_place P L = L := max_eq_right (by omega)
    have hshift : (round_place P L - P).toNat = k := by rw [hmax]; omega
    have hkpos : (0 : ℤ) < 2 ^ k := by positivity
    have hfm : MAX_SIGNIFICAND_VALUE (1 + (L - P)) = 2 ^ k - 1 := by
      unfold MAX_SIGNIFICAND_VALUE
      rw [show 1 + (L - P) - 1 = (k : ℤ) by omega, pow2_coe]
    have hsl : -(2 ^ w - 1) ≤ s ∧ s ≤ 2 ^ w - 1 := by
      rw [legal_iff_abs] at hs
      unfold MAX_SIGNIFICAND_VALUE at hs
      rw [hw, pow2_coe] at hs
      exact abs_le.mp hs
    unfold trunc_sig round_common
    rw [if_neg (by rw [hmax]; omega), hshift, sra_eq_ediv]
    simp only [if_neg (show ¬ (P ≥ L) by omega), hfm]
    unfold round_width
    rw [if_neg (show ¬ (P ≥ L) by omega)]
    by_cases hs0 : 0 ≤ s
    · rw [if_pos hs0]
      have hr0 : 0 ≤ s / 2 ^ k := Int.ediv_nonneg hs0 (by positivity)
      by_cases hsmall : W + P ≤ 1 + L
      · rw [if_pos hsmall]
        have hup : s / 2 ^ k ≤ 0 := by
          have : s / 2 ^ k < 1 := by
            rw [Int.ediv_lt_iff_lt_mul hkpos]
            have : (2 : ℤ) ^ w ≤ 2 ^ k := two_pow_mono (by omega)
            linarith [hsl.2]
          exact Int.lt_add_one_iff.mp (by linarith)
        rw [show max (2 : ℤ) (1 + 0) = 2 by norm_num]
        unfold legal MIN_SIGNIFICAND_VALUE MAX_SIGNIFICAND_VALUE pow2
        norm_num
        exact ⟨by linarith, by linarith⟩
      · rw [if_neg hsmall]
        have hkw : k ≤ w := by omega
        have hpow : (2 : ℤ) ^ (w - k) * 2 ^ k = 2 ^ w := by
          rw [← pow_add]
          congr 1
          omega
        have hup : s / 2 ^ k ≤ 2 ^ (w - k) - 1 := by
          have : s / 2 ^ k < 2 ^ (w - k) := by
            rw [Int.ediv_lt_iff_lt_mul hkpos]
            linarith [hsl.2]
          exact Int.lt_add_one_iff.mp (by linarith)
        have hWPL : W + P + 0 - L - 1 = ((w - k : ℕ) : ℤ) := by
          push_cast
          omega
        unfold legal MIN_SIGNIFICAND_VALUE MAX_SIGNIFICAND_VALUE
        rw [hWPL, pow2_coe]
        exact ⟨by linarith, hup⟩
    · rw [if_neg hs0]
      push_neg at hs0
      have hxr : s + (2 ^ k - 1) < 1 * 2 ^ k := by linarith
      have hup : (s + (2 ^ k - 1)) / 2 ^ k ≤ 0 := by
        have : (s + (2 ^ k - 1)) / 2 ^ k < 1 := by
          rw [Int.ediv_lt_iff_lt_mul hkpos]
          linarith
        exact Int.lt_add_one_iff.mp (by linarith)
      by_cases hsmall : W + P ≤ 1 + L
      · rw [if_pos hsmall]
        have hdn : -1 ≤ (s + (2 ^ k - 1)) / 2 ^ k := by
          rw [Int.le_ediv_iff_mul_le hkpos]
          have : (2 : ℤ) ^ w ≤ 2 ^ k := two_pow_mono (by omega)
          linarith [hsl.1]
        rw [show max (2 : ℤ) (1 + 0) = 2 by norm_num]
        unfold legal MIN_SIGNIFICAND_VALUE MAX_SIGNIFICAND_VALUE pow2
        norm_num
        exact ⟨hdn, by linarith⟩
      · rw [if_neg hsmall]
        have hkw : k ≤ w := by omega
        have hpow : (2 : ℤ) ^ (w - k) * 2 ^ k = 2 ^ w := by
          rw [← pow_add]
          congr 1
          omega
        have hdn : -(2 ^ (w - k) - 1) ≤ (s + (2 ^ k - 1)) / 2 ^ k := by
          rw [Int.le_ediv_iff_mul_le hkpos]
          nlinarith [hsl.1]
        have hWPL : W + P + 0 - L - 1 = ((w - k : ℕ) : ℤ) := by
          push_cast
          omega
        unfold legal MIN_SIGNIFICAND_VALUE MAX_SIGNIFICAND_VALUE
        rw [hWPL, pow2_coe]
        have := one_le_two_pow (w - k)
        exact ⟨hdn, by linarith⟩

/-! ## Bit-level lemmas for the adders -/

theorem high_mask_eq (n k : ℕ) (hk : k ≤ n) :
    2 ^ n - 2 ^ k = 2 ^ k * (2 ^ (n - k) - 1) := by
  have h1 : (2 : ℕ) ^ k * 2 ^ (n - k) = 2 ^ n := by
    rw [← pow_add]
    congr 1
    omega
  rw [Nat.mul_sub, mul_one, h1]

theorem and_high_mask (n k r : ℕ) (hk : k ≤ n) (hr : r < 2 ^ n) :
    r &&& (2 ^ n - 2 ^ k) = 2 ^ k * (r / 2 ^ k) := by
  rw [high_mask_eq n k hk]
  apply Nat.eq_of_testBit_eq
  intro t
  rw [Nat.testBit_and, Nat.testBit_mul_pow_two, Nat.testBit_mul_pow_two,
      Nat.testBit_two_pow_sub_one]
  have hdiv : (r / 2 ^ k).testBit (t - k) = r.testBit (k + (t - k)) := by
    rw [← Nat.shiftRight_eq_div_pow, Nat.testBit_shiftRight]
  rw [hdiv]
  by_cases hkt : k ≤ t
  · rw [show k + (t - k) = t from by omega]
    by_cases htn : t < n
    · have d1 : decide (t ≥ k) = true := by simp [ge_iff_le, hkt]
      have d2 : decide (t - k < n - k) = true := by
        simp only [decide_eq_true_eq]
        omega
      rw [d1, d2]
      simp [Bool.and_comm]
    · have hbit : r.testBit t = false :=
        Nat.testBit_lt_two_pow
          (lt_of_lt_of_le hr (Nat.pow_le_pow_right (by norm_num) (by omega)))
      have d2 : decide (t - k < n - k) = false := by
        simp only [decide_eq_false_iff_not]
        omega
      rw [hbit, d2]
      simp
  · have d1 : decide (t ≥ k) = false := by simp [ge_iff_le, hkt]
    rw [d1]
    simp

theorem or_high_mask (n k r : ℕ) (hk : k ≤ n) (hr : r < 2 ^ n) :
    r ||| (2 ^ n - 2 ^ k) = (2 ^ n - 2 ^ k) + r % 2 ^ k := by
  have hmod : r % 2 ^ k < 2 ^ k := Nat.mod_lt _ (by positivity)
  rw [high_mask_eq n k hk, Nat.mul_add_lt_is_or hmod]
  apply Nat.eq_of_testBit_eq
  intro t
  rw [Nat.testBit_or, Nat.testBit_or, Nat.testBit_mul_pow_two,
      Nat.testBit_two_pow_sub_one, Nat.testBit_mod_two_pow]
  by_cases h1 : t < k
  · have d : decide (t ≥ k) = false := by
      simp only [ge_iff_le, decide_eq_false_iff_not]
      omega
    have d2 : decide (t < k) = true := by simp [h1]
    rw [d, d2]
    simp [Bool.or_comm]
  · by_cases h2 : t < n
    · have d1 : decide (t ≥ k) = true := by simp [ge_iff_le]; omega
      have d2 : decide (t - k < n - k) = true := by
        simp only [decide_eq_true_eq]
        omega
      rw [d1, d2]
      simp
    · have hbit : r.testBit t = false :=
        Nat.testBit_lt_two_pow
          (lt_of_lt_of_le hr (Nat.pow_le_pow_right (by norm_num) (by omega)))
      have d1 : decide (t < k) = false := by simp [h1]
      have d2 : decide (t - k < n - k) = false := by
        simp only [decide_eq_false_iff_not]
        omega
      rw [hbit, d1, d2]
      simp

theorem nat_div_mod_of_decomp (k q r m : ℕ) (hr : r < 2 ^ k)
    (hm : m = 2 ^ k * q + r) : m / 2 ^ k = q ∧ m % 2 ^ k = r := by
  constructor
  · rw [hm, Nat.mul_add_div (by positivity), Nat.div_eq_of_lt hr, add_zero]
  · rw [hm, Nat.mul_add_mod, Nat.mod_eq_of_lt hr]

/-- The unsigned 64-bit representative of a small signed sum: its low
`k`-bit field and the field above, in each of the four sign/magnitude
cases. -/
theorem rep_cases (k : ℕ) (sum : ℤ) (m : ℕ) (hk1 : 1 ≤ k) (hk : k ≤ 62)
    (hm : (m : ℤ) = sum % 2 ^ 64)
    (hlo : -(2 ^ (k + 1)) < sum) (hhi : sum < 2 ^ (k + 1)) :
    m < 2 ^ 64 ∧
    ((0 ≤ sum ∧ sum < 2 ^ k) →
      m / 2 ^ k = 0 ∧ ((m % 2 ^ k : ℕ) : ℤ) = sum) ∧
    ((2 ^ k ≤ sum) →
      m / 2 ^ k = 1 ∧ ((m % 2 ^ k : ℕ) : ℤ) = sum - 2 ^ k) ∧
    ((-(2 ^ k) ≤ sum ∧ sum < 0) →
      m / 2 ^ k = 2 ^ (64 - k) - 1 ∧ ((m % 2 ^ k : ℕ) : ℤ) = sum + 2 ^ k) ∧
    ((sum < -(2 ^ k)) →
      m / 2 ^ k = 2 ^ (64 - k) - 2 ∧ ((m % 2 ^ k : ℕ) : ℤ) = sum + 2 ^ (k + 1)) := by
  have hkk : (2 : ℤ) ^ (k + 1) = 2 * 2 ^ k := by
    rw [pow_succ]
    ring
  have hk63 : (2 : ℤ) ^ (k + 1) ≤ 2 ^ 63 := two_pow_mono (by omega)
  have h6364 : (2 : ℤ) ^ 63 < 2 ^ 64 := by norm_num
  have hkpos : (0 : ℤ) < 2 ^ k := by positivity
  have he1 : (2 : ℤ) ^ k * (2 ^ (64 - k) - 1) = 2 ^ 64 - 2 ^ k := by
    rw [mul_sub, mul_one, ← pow_add, show k + (64 - k) = 64 from by omega]
  have he2 : (2 : ℤ) ^ k * (2 ^ (64 - k) - 2) = 2 ^ 64 - 2 ^ (k + 1) := by
    rw [mul_sub, ← pow_add, show k + (64 - k) = 64 from by omega, hkk]
    ring
  have hc1 : ((2 ^ (64 - k) - 1 : ℕ) : ℤ) = 2 ^ (64 - k) - 1 := by
    push_cast [Nat.cast_sub (Nat.one_le_two_pow)]
    ring
  have hc2 : ((2 ^ (64 - k) - 2 : ℕ) : ℤ) = 2 ^ (64 - k) - 2 := by
    have h2 : (2 : ℕ) ≤ 2 ^ (64 - k) := by
      calc (2 : ℕ) = 2 ^ 1 := (pow_one 2).symm
      _ ≤ 2 ^ (64 - k) := Nat.pow_le_pow_right (by norm_num) (by omega)
    push_cast [Nat.cast_sub h2]
    ring
  by_cases hsgn : 0 ≤ sum
  · have hm' : (m : ℤ) = sum := by
      rw [hm, Int.emod_eq_of_lt hsgn (by linarith)]
    have hm64 : m < 2 ^ 64 := by
      have : (m : ℤ) < 2 ^ 64 := by linarith
      exact_mod_cast this
    refine ⟨hm64, ?_, ?_, ?_, ?_⟩
    · rintro ⟨h0, h1⟩
      have hdm := nat_div_mod_of_decomp k 0 sum.toNat m
        (by exact_mod_cast (show (sum.toNat : ℤ) < 2 ^ k by
              rw [Int.toNat_of_nonneg h0]; exact h1))
        (by rw [show (2:ℕ)^k * 0 + sum.toNat = sum.toNat by ring]
            exact_mod_cast hm'.trans (Int.toNat_of_nonneg h0).symm)
      exact ⟨hdm.1, by rw [hdm.2, Int.toNat_of_nonneg h0]⟩
    · intro h1
      have hdm := nat_div_mod_of_decomp k 1 (sum - 2 ^ k).toNat m
        (by exact_mod_cast (show ((sum - 2 ^ k).toNat : ℤ) < 2 ^ k by
              rw [Int.toNat_of_nonneg (by linarith)]; linarith))
        (by
          have : (m : ℤ) = ((2 ^ k * 1 + (sum - 2 ^ k).toNat : ℕ) : ℤ) := by
            push_cast
            rw [Int.toNat_of_nonneg (by linarith)]
            linarith
          exact_mod_cast this)
      exact ⟨hdm.1, by rw [hdm.2, Int.toNat_of_nonneg (by linarith)]⟩
    · rintro ⟨h0, h1⟩
      omega
    · intro h1
      omega
  · push_neg at hsgn
    have hm' : (m : ℤ) = sum + 2 ^ 64 := by
      have hsh : (sum + 2 ^ 64 * 1) % 2 ^ 64 = sum % 2 ^ 64 :=
        Int.add_mul_emod_self_left sum (2 ^ 64) 1
      rw [hm, ← hsh, mul_one,
          Int.emod_eq_of_lt (by linarith) (by linarith)]
    have hm64 : m < 2 ^ 64 := by
      have : (m : ℤ) < 2 ^ 64 := by linarith
      exact_mod_cast this
    refine ⟨hm64, ?_, ?_, ?_, ?_⟩
    · rintro ⟨h0, h1⟩
      omega
    · intro h1
      omega
    · rintro ⟨h0, h1⟩
      have hdm := nat_div_mod_of_decomp k (2 ^ (64 - k) - 1) (sum + 2 ^ k).toNat m
        (by exact_mod_cast (show ((sum + 2 ^ k).toNat : ℤ) < 2 ^ k by
              rw [Int.toNat_of_nonneg (by linarith)]; linarith))
        (by
          have : (m : ℤ) = ((2 ^ k * (2 ^ (64 - k) - 1) + (sum + 2 ^ k).toNat : ℕ) : ℤ) := by
            push_cast [hc1]
            rw [Int.toNat_of_nonneg (by linarith)]
            linarith [he1]
          exact_mod_cast this)
      exact ⟨hdm.1, by rw [hdm.2, Int.toNat_of_nonneg (by linarith)]⟩
    · intro h1
      have hdm := nat_div_mod_of_decomp k (2 ^ (64 - k) - 2) (sum + 2 ^ (k + 1)).toNat m
        (by exact_mod_cast (show ((sum + 2 ^ (k + 1)).toNat : ℤ) < 2 ^ k by
              rw [Int.toNat_of_nonneg (by linarith)]; linarith [hkk]))
        (by
          have : (m : ℤ)
              = ((2 ^ k * (2 ^ (64 - k) - 2) + (sum + 2 ^ (k + 1)).toNat : ℕ) : ℤ) := by
            push_cast [hc2]
            rw [Int.toNat_of_nonneg (by linarith)]
            linarith [he2]
          exact_mod_cast this)
      exact ⟨hdm.1, by rw [hdm.2, Int.toNat_of_nonneg (by linarith)]⟩

/-- Closed form of `int_adder`: the sum is reduced to the unique
`WIDTH1`-bit two's-complement representative. -/
theorem int_adder_eq_wrap (W1 acc inc : ℤ) (hW1a : 2 ≤ W1) (hW1 : W1 ≤ 63)
    (hlo : -(pow2 W1) < acc + inc) (hhi : acc + inc < pow2 W1) :
    int_adder W1 acc inc
      = (acc + inc + pow2 (W1 - 1)) % pow2 W1 - pow2 (W1 - 1) := by
  obtain ⟨k, hk, hk1, hk62⟩ : ∃ n : ℕ, W1 - 1 = (n : ℤ) ∧ 1 ≤ n ∧ n ≤ 62 :=
    ⟨(W1 - 1).toNat, by omega, by omega, by omega⟩
  have hp1 : pow2 (W1 - 1) = 2 ^ k := by rw [hk, pow2_coe]
  have hpW : pow2 W1 = 2 ^ (k + 1) := by
    rw [show W1 = ((k + 1 : ℕ) : ℤ) from by omega, pow2_coe]
  have hWk : (W1 - 1).toNat = k := by omega
  have hlo2 : -(2 ^ (k + 1)) < acc + inc := by rw [hpW] at hlo; exact hlo
  have hhi2 : acc + inc < 2 ^ (k + 1) := by rw [hpW] at hhi; exact hhi
  rw [hp1, hpW]
  simp only [int_adder, hWk]
  set sum := acc + inc with hsum
  have hkk : (2 : ℤ) ^ (k + 1) = 2 * 2 ^ k := by rw [pow_succ]; ring
  have hkpos : (0 : ℤ) < 2 ^ k := by positivity
  have hkpn : (0 : ℕ) < 2 ^ k := by positivity
  have hmnn : 0 ≤ sum % 2 ^ 64 := Int.emod_nonneg sum (by positivity)
  have hm : ((toU64 sum : ℕ) : ℤ) = sum % 2 ^ 64 := by
    unfold toU64
    exact Int.toNat_of_nonneg hmnn
  obtain ⟨hm64, hca, hcb, hcc, hcd⟩ :=
    rep_cases k sum (toU64 sum) hk1 hk62 hm hlo2 hhi2
  have hU1 : 2 ^ k - 1 + 1 = 2 ^ k := by
    have h1 : (1 : ℕ) ≤ 2 ^ k := Nat.one_le_two_pow
    omega
  have hormask : 2 ^ 64 - 1 - (2 ^ k - 1) = 2 ^ 64 - 2 ^ k := by
    have h1 : (1 : ℕ) ≤ 2 ^ k := Nat.one_le_two_pow
    have h2 : (2 : ℕ) ^ k ≤ 2 ^ 62 := Nat.pow_le_pow_right (by norm_num) hk62
    have h3 : (2 : ℕ) ^ 62 < 2 ^ 64 := by norm_num
    omega
  rw [hU1, hormask]
  have handbit : toU64 sum &&& 2 ^ k
      = (Nat.testBit (toU64 sum) k).toNat * 2 ^ k := Nat.and_two_pow _ k
  have handlow : toU64 sum &&& (2 ^ k - 1) = toU64 sum % 2 ^ k :=
    Nat.and_pow_two_sub_one_eq_mod _ k
  have horval := or_high_mask 64 k (toU64 sum) (by omega) hm64
  have hltsmall : toU64 sum % 2 ^ k < 2 ^ 63 := by
    have h2 : (2 : ℕ) ^ k ≤ 2 ^ 62 := Nat.pow_le_pow_right (by norm_num) hk62
    have h3 : (2 : ℕ) ^ 62 < 2 ^ 63 := by norm_num
    have := Nat.mod_lt (toU64 sum) hkpn
    omega
  have hcast64 : ∀ r : ℕ, ((2 ^ 64 - 2 ^ k + r : ℕ) : ℤ)
      = 2 ^ 64 - 2 ^ k + (r : ℤ) := by
    intro r
    have h2 : (2 : ℕ) ^ k ≤ 2 ^ 64 := Nat.pow_le_pow_right (by norm_num) (by omega)
    rw [Nat.cast_add, Nat.cast_sub h2]
    push_cast
    ring
  have hbig : ¬ (2 ^ 64 - 2 ^ k + toU64 sum % 2 ^ k < 2 ^ 63) := by
    have h2 : (2 : ℕ) ^ k ≤ 2 ^ 62 := Nat.pow_le_pow_right (by norm_num) hk62
    have h3 : (2 : ℕ) ^ 62 + 2 ^ 63 < 2 ^ 64 := by norm_num
    omega
  by_cases h0 : 0 ≤ sum
  · by_cases hA : sum < 2 ^ k
    · obtain ⟨hdiv, hmod⟩ := hca ⟨h0, hA⟩
      have htb : Nat.testBit (toU64 sum) k = false := by
        rw [Nat.testBit_to_div_mod, hdiv]
        norm_num
      have hcond : toU64 sum &&& 2 ^ k = 0 := by
        rw [handbit, htb]
        norm_num
      rw [if_pos hcond, handlow]
      unfold ofU64
      rw [if_pos hltsmall]
      rw [Int.emod_eq_of_lt (by linarith) (by linarith)]
      linarith [hmod]
    · push_neg at hA
      obtain ⟨hdiv, hmod⟩ := hcb hA
      have htb : Nat.testBit (toU64 sum) k = true := by
        rw [Nat.testBit_to_div_mod, hdiv]
        rfl
      have hcond : ¬ (toU64 sum &&& 2 ^ k = 0) := by
        rw [handbit, htb]
        have : (true.toNat) = 1 := rfl
        rw [this, one_mul]
        positivity
      rw [if_neg hcond, horval]
      unfold ofU64
      rw [if_neg hbig, hcast64 _]
      have hemod : (sum + 2 ^ k) % 2 ^ (k + 1) = sum + 2 ^ k - 2 ^ (k + 1) := by
        conv_lhs =>
          rw [show sum + 2 ^ k
              = (sum + 2 ^ k - 2 ^ (k + 1)) + 2 ^ (k + 1) * 1 by ring]
        rw [Int.add_mul_emod_self_left _ _ _,
            Int.emod_eq_of_lt (by linarith) (by linarith)]
      rw [hemod]
      linarith [hmod]
  · push_neg at h0
    by_cases hC : -(2 ^ k) ≤ sum
    · obtain ⟨hdiv, hmod⟩ := hcc ⟨hC, h0⟩
      have hodd : (2 ^ (64 - k) - 1) % 2 = 1 := by
        have hdvd : (2 : ℕ) ∣ 2 ^ (64 - k) :=
          dvd_pow_self 2 (by omega : 64 - k ≠ 0)
        have h1 : (1 : ℕ) ≤ 2 ^ (64 - k) := Nat.one_le_two_pow
        omega
      have htb : Nat.testBit (toU64 sum) k = true := by
        rw [Nat.testBit_to_div_mod, hdiv, hodd]
        rfl
      have hcond : ¬ (toU64 sum &&& 2 ^ k = 0) := by
        rw [handbit, htb]
        have : (true.toNat) = 1 := rfl
        rw [this, one_mul]
        positivity
      rw [if_neg hcond, horval]
      unfold ofU64
      rw [if_neg hbig, hcast64 _]
      rw [Int.emod_eq_of_lt (by linarith) (by linarith)]
      linarith [hmod]
    · push_neg at hC
      obtain ⟨hdiv, hmod⟩ := hcd hC
      have heven : (2 ^ (64 - k) - 2) % 2 = 0 := by
        have hdvd : (2 : ℕ) ∣ 2 ^ (64 - k) :=
          dvd_pow_self 2 (by omega : 64 - k ≠ 0)
        have h1 : (1 : ℕ) ≤ 2 ^ (64 - k) := Nat.one_le_two_pow
        omega
      have htb : Nat.testBit (toU64 sum) k = false := by
        rw [Nat.testBit_to_div_mod, hdiv, heven]
        norm_num
      have hcond : toU64 sum &&& 2 ^ k = 0 := by
        rw [handbit, htb]
        norm_num
      rw [if_pos hcond, handlow]
      unfold ofU64
      rw [if_pos hltsmall]
      have hemod : (sum + 2 ^ k) % 2 ^ (k + 1) = sum + 2 ^ k + 2 ^ (k + 1) := by
        conv_lhs =>
          rw [show sum + 2 ^ k
              = (sum + 2 ^ k + 2 ^ (k + 1)) + 2 ^ (k + 1) * (-1) by ring]
        rw [Int.add_mul_emod_self_left _ _ _,
            Int.emod_eq_of_lt (by linarith) (by linarith)]
      rw [hemod]
      linarith [hmod]

/-! ## Claim theorems -/

/-- C2: claim theorem. For all operand types, the result type of `operator+` and
`operator-` has place `min(placeA, placeB)` and width
`max(widthA+placeA, widthB+placeB) - min(placeA, placeB) + extra`, where
`extra = 0` exactly when the operands' bit ranges excluding sign do not
overlap (`placeA ≥ widthB+placeB-1` or `placeB ≥ widthA+placeA-1`), and
`extra = 1` otherwise. -/
theorem addition_result_type_formula (W1 P1 W2 P2 : ℤ) :
    addition_place P1 P2 = min P1 P2 ∧
    addition_width W1 P1 W2 P2
      = max (W1 + P1) (W2 + P2) - min P1 P2
        + (if P1 ≥ W2 + P2 - 1 ∨ P2 ≥ W1 + P1 - 1 then 0 else 1) :=
  ⟨rfl, rfl⟩

/-- C9: claim theorem. Multiplying a `Complex` with parts of type `(8, -4)` by one
with parts of type `(7, -5)` yields parts of width 15 and place -9: each
of the four scalar sub-products has type `(14, -9)` by the
multiplication rule, and both the real part (a difference) and the
imaginary part (a sum) combine two such products by the
addition/subtraction rule. -/
theorem complex_mul_derived_type :
    complex_mul_width 8 (-4) 7 (-5) = 15 ∧
    complex_mul_place (-4) (-5) = -9 ∧
    mul_width 8 7 = 14 ∧ mul_place (-4) (-5) = -9 := by
  refine ⟨?_, by decide, by decide, by decide⟩
  decide

/-- C3: claim theorem. For every double `d` (modelled as an exact rational) and
every `(width, place)`, constructing `FixedPoint<width, place>` from `d`
and converting back to double yields exactly
`limit_precision(d, width, place)`; equivalently `to_significand`'s
result equals `limit_precision`'s result divided by `2^place`, under the
same ambient rounding mode `rnd`. -/
theorem to_significand_matches_limit_precision (rnd : ℚ → ℤ) (W P : ℤ) (d : ℚ) :
    valueQ (to_significand rnd W P d) P = limit_precision rnd d W P ∧
    ((to_significand rnd W P d : ℤ) : ℚ)
      = limit_precision rnd d W P * (2 : ℚ) ^ (-P) := by
  have key : ((to_significand rnd W P d : ℤ) : ℚ)
      = (limit_precision rnd d W P) * (2 : ℚ) ^ (-P) := by
    unfold to_significand limit_precision clamp
    simp only [MIN_SIGNIFICAND_VALUE, MAX_SIGNIFICAND_VALUE]
    set r : ℤ := rnd (d * (2 : ℚ) ^ (-P)) with hr
    rw [mul_assoc, ← zpow_add₀ (two_ne_zero : (2 : ℚ) ≠ 0) P (-P)]
    simp only [add_neg_cancel, zpow_zero, mul_one]
    by_cases h1 : r > pow2 (W - 1) - 1
    · rw [if_pos h1, if_pos (by exact_mod_cast h1)]
    · rw [if_neg h1, if_neg (show ¬((r : ℚ) > ((pow2 (W - 1) - 1 : ℤ) : ℚ))
        by exact_mod_cast h1)]
      by_cases h2 : r < -(pow2 (W - 1) - 1)
      · rw [if_pos h2, if_pos (show (r : ℚ) < -((pow2 (W - 1) - 1 : ℤ) : ℚ)
          by exact_mod_cast h2)]
        push_cast
        ring
      · rw [if_neg h2, if_neg (show ¬((r : ℚ) < -((pow2 (W - 1) - 1 : ℤ) : ℚ))
          by exact_mod_cast h2)]
  constructor
  · unfold valueQ
    rw [key, mul_assoc, ← zpow_add₀ (two_ne_zero : (2 : ℚ) ≠ 0) (-P) P]
    simp
  · exact key

/-- C1: claim theorem. For operands holding legal significands, the real values of
the results of `operator+`, `operator-` and `operator*` at their derived
result types equal exactly the mathematical sum, difference and product
of the operands' real values: no rounding or clamping occurs. -/
theorem add_sub_mul_exact (W1 P1 W2 P2 s1 s2 : ℤ)
    (h1 : legal W1 s1) (h2 : legal W2 s2) :
    valueQ (add_sig P1 P2 s1 s2) (addition_place P1 P2)
      = valueQ s1 P1 + valueQ s2 P2 ∧
    valueQ (sub_sig P1 P2 s1 s2) (addition_place P1 P2)
      = valueQ s1 P1 - valueQ s2 P2 ∧
    valueQ (mul_sig s1 s2) (mul_place P1 P2) = valueQ s1 P1 * valueQ s2 P2 := by
  clear h1 h2
  have hm1 : addition_place P1 P2 ≤ P1 := min_le_left P1 P2
  have hm2 : addition_place P1 P2 ≤ P2 := min_le_right P1 P2
  refine ⟨?_, ?_, ?_⟩
  · unfold add_sig
    rw [show valueQ (narrow_sig P1 (addition_place P1 P2) s1
          + narrow_sig P2 (addition_place P1 P2) s2) (addition_place P1 P2)
        = valueQ (narrow_sig P1 (addition_place P1 P2) s1) (addition_place P1 P2)
          + valueQ (narrow_sig P2 (addition_place P1 P2) s2) (addition_place P1 P2)
        by unfold valueQ; push_cast; ring]
    rw [valueQ_narrow P1 _ s1 hm1, valueQ_narrow P2 _ s2 hm2]
  · unfold sub_sig
    rw [show valueQ (narrow_sig P1 (addition_place P1 P2) s1
          - narrow_sig P2 (addition_place P1 P2) s2) (addition_place P1 P2)
        = valueQ (narrow_sig P1 (addition_place P1 P2) s1) (addition_place P1 P2)
          - valueQ (narrow_sig P2 (addition_place P1 P2) s2) (addition_place P1 P2)
        by unfold valueQ; push_cast; ring]
    rw [valueQ_narrow P1 _ s1 hm1, valueQ_narrow P2 _ s2 hm2]
  · unfold valueQ mul_sig mul_place
    push_cast
    rw [zpow_add₀ (two_ne_zero : (2 : ℚ) ≠ 0) P1 P2]
    ring

/-- Witness for C1 at a concrete input: operands `5 * 2^0` and
`7 * 2^-3` of types `(8, 0)` and `(8, -3)`. -/
theorem add_sub_mul_exact_witness :
    valueQ (add_sig 0 (-3) 5 7) (addition_place 0 (-3)) = valueQ 5 0 + valueQ 7 (-3) ∧
    valueQ (sub_sig 0 (-3) 5 7) (addition_place 0 (-3)) = valueQ 5 0 - valueQ 7 (-3) ∧
    valueQ (mul_sig 5 7) (mul_place 0 (-3)) = valueQ 5 0 * valueQ 7 (-3) :=
  add_sub_mul_exact 8 0 8 (-3) 5 7 (by decide) (by decide)

theorem round_common_eval (P L : ℤ) (f : ℤ → ℤ) (s : ℤ) (k : ℕ)
    (hk : 1 ≤ k) (hL : L = P + k) :
    round_common P L f s = f s / 2 ^ k := by
  have hmax : round_place P L = L := max_eq_right (by omega)
  unfold round_common
  rw [if_neg (by rw [hmax]; omega), sra_eq_ediv]
  congr 2
  rw [hmax]
  omega

/-- C6: counterexample to the claim as frozen.  The claim conditions the
no-discard case on a target LSB place `L` with `L ≥ P`; but for
`L = 0 ≥ P = -2` the code does round: `trunc` maps significand 5
(the value `1.25`) to 1 (the value `1`), so the result is neither the
source significand reinterpreted nor equal in real value. -/
theorem rounding_no_discard_counterexample :
    (0 : ℤ) ≥ (-2 : ℤ) ∧
    trunc_sig (-2) 0 5 ≠ 5 ∧
    valueQ (trunc_sig (-2) 0 5) (round_place (-2) 0) ≠ valueQ 5 (-2) := by
  refine ⟨by norm_num, by decide, ?_⟩
  have h1 : trunc_sig (-2) 0 5 = 1 := by decide
  have h2 : round_place (-2) 0 = 0 := by decide
  rw [h1, h2]
  unfold valueQ
  rw [zpow_zero, show ((2 : ℚ) ^ (-2 : ℤ)) = 1 / 4 by
    rw [show (-2 : ℤ) = -((2 : ℕ) : ℤ) by norm_num, zpow_neg, zpow_natCast]
    norm_num]
  norm_num

/-- C6: claim theorem, amended.  The no-discard case holds when the
source place `P` is not finer than the target LSB place `L` — that is
`L ≤ P`, the reverse of the frozen claim's `L ≥ P`: then every rounding
function discards no information: the result significand is the source
significand, the result place and width are the source's, and the real
value is unchanged.  (For `L > P` the code rounds and can discard
fraction bits, as the counterexample shows.) -/
theorem rounding_no_discard_when_coarser (W P L s : ℤ) (h : L ≤ P) :
    ceil_sig P L s = s ∧ floor_sig P L s = s ∧ trunc_sig P L s = s ∧
    round_half_to_even_sig P L s = s ∧
    round_half_away_from_zero_sig P L s = s ∧
    round_half_toward_zero_sig P L s = s ∧
    round_half_up_sig P L s = s ∧
    round_half_down_sig P L s = s ∧
    round_place P L = P ∧ round_width W P 1 L = W ∧ round_width W P 0 L = W ∧
    valueQ s (round_place P L) = valueQ s P := by
  have hmax : round_place P L = P := max_eq_left h
  have hcopy : ∀ f : ℤ → ℤ, round_common P L f s = s := by
    intro f
    unfold round_common
    rw [if_pos hmax.symm]
  refine ⟨hcopy _, hcopy _, hcopy _, hcopy _, hcopy _, hcopy _, hcopy _,
    hcopy _, hmax, ?_, ?_, by rw [hmax]⟩
  · unfold round_width
    rw [if_pos h]
  · unfold round_width
    rw [if_pos h]

theorem MAX_SIG_shift (L P : ℤ) :
    MAX_SIGNIFICAND_VALUE (1 + (L - P)) = pow2 (L - P) - 1 := by
  unfold MAX_SIGNIFICAND_VALUE
  rw [show 1 + (L - P) - 1 = L - P by ring]

/-- C4: claim theorem. Every `FixedPoint<width, place>` instance reachable through
the public interface holds a significand in
`[-(2^(width-1)-1), 2^(width-1)-1]` at the instance's own width: default
construction, narrowing copy, construction from double,
`set_significand`, `reduce_dynamic_range`, unary minus, `operator+`,
`operator-`, `operator*`, `exp2`, and each of the eight rounding
functions all produce legal significands at their result widths; in
particular no instance ever holds the two's-complement minimum
`-2^(width-1)`, which lies strictly below this range. -/
theorem significand_invariant_preserved :
    (∀ W : ℤ, legal W 0) ∧
    (∀ W WS PS P s : ℤ, 2 ≤ WS → P ≤ PS → WS + PS ≤ W + P → legal WS s →
      legal W (narrow_sig PS P s)) ∧
    (∀ (rnd : ℚ → ℤ) (W P : ℤ) (d : ℚ), legal W (to_significand rnd W P d)) ∧
    (∀ W v : ℤ, legal W (clamp W v)) ∧
    (∀ DW s : ℤ, legal DW (clamp DW s)) ∧
    (∀ W s : ℤ, legal W s → legal W (neg_sig s)) ∧
    (∀ W1 P1 W2 P2 s1 s2 : ℤ, 2 ≤ W1 → 2 ≤ W2 → legal W1 s1 → legal W2 s2 →
      legal (addition_width W1 P1 W2 P2) (add_sig P1 P2 s1 s2)) ∧
    (∀ W1 P1 W2 P2 s1 s2 : ℤ, 2 ≤ W1 → 2 ≤ W2 → legal W1 s1 → legal W2 s2 →
      legal (addition_width W1 P1 W2 P2) (sub_sig P1 P2 s1 s2)) ∧
    (∀ W1 W2 s1 s2 : ℤ, 2 ≤ W1 → 2 ≤ W2 → legal W1 s1 → legal W2 s2 →
      legal (mul_width W1 W2) (mul_sig s1 s2)) ∧
    (∀ W s : ℤ, legal W s → legal W (exp2_sig s)) ∧
    (∀ W P L s : ℤ, 2 ≤ W → legal W s →
      legal (round_width W P 1 L) (ceil_sig P L s)) ∧
    (∀ W P L s : ℤ, 2 ≤ W → legal W s →
      legal (round_width W P 1 L) (floor_sig P L s)) ∧
    (∀ W P L s : ℤ, 2 ≤ W → legal W s →
      legal (round_width W P 0 L) (trunc_sig P L s)) ∧
    (∀ W P L s : ℤ, 2 ≤ W → legal W s →
      legal (round_width W P 1 L) (round_half_to_even_sig P L s)) ∧
    (∀ W P L s : ℤ, 2 ≤ W → legal W s →
      legal (round_width W P 1 L) (round_half_away_from_zero_sig P L s)) ∧
    (∀ W P L s : ℤ, 2 ≤ W → legal W s →
      legal (round_width W P 1 L) (round_half_toward_zero_sig P L s)) ∧
    (∀ W P L s : ℤ, 2 ≤ W → legal W s →
      legal (round_width W P 1 L) (round_half_up_sig P L s)) ∧
    (∀ W P L s : ℤ, 2 ≤ W → legal W s →
      legal (round_width W P 1 L) (round_half_down_sig P L s)) := by
  refine ⟨legal_zero, legal_narrow, fun rnd W P d => legal_clamp W _,
    legal_clamp, legal_clamp, legal_neg, legal_add, legal_sub, legal_mul,
    fun W s h => h, ?ceil, ?floor, legal_trunc, ?even, ?away, ?toward,
    ?up, ?down⟩
  case ceil =>
    intro W P L s hW hs
    unfold ceil_sig
    refine legal_round_biased W P L s _ hW hs (fun hPL => ?_)
    simp only [if_neg (show ¬ (P ≥ L) by omega), MAX_SIG_shift]
    constructor
    · linarith [one_le_pow2 (L - P)]
    · linarith
  case floor =>
    intro W P L s hW hs
    unfold floor_sig
    refine legal_round_biased W P L s _ hW hs (fun hPL => ?_)
    constructor
    · linarith
    · linarith [one_le_pow2 (L - P)]
  case even =>
    intro W P L s hW hs
    unfold round_half_to_even_sig
    refine legal_round_biased W P L s _ hW hs (fun hPL => ?_)
    simp only [if_neg (show ¬ (P ≥ L) by omega)]
    unfold MAX_SIGNIFICAND_VALUE
    have hd := pow2_double (L - P) (by omega)
    have h1 := one_le_pow2 (L - P - 1)
    have hit : (0 : ℤ) ≤ (if s / pow2 (L - P) % 2 = 1 then (1 : ℤ) else 0)
        ∧ (if s / pow2 (L - P) % 2 = 1 then (1 : ℤ) else 0) ≤ 1 := by
      split_ifs <;> norm_num
    constructor
    · linarith [hit.1]
    · linarith [hit.2]
  case away =>
    intro W P L s hW hs
    unfold round_half_away_from_zero_sig
    refine legal_round_biased W P L s _ hW hs (fun hPL => ?_)
    simp only [if_neg (show ¬ (P ≥ L) by omega)]
    have hd := pow2_double (L - P) (by omega)
    have h1 := one_le_pow2 (L - P - 1)
    have hit : (0 : ℤ) ≤ (if s < 0 then (1 : ℤ) else 0)
        ∧ (if s < 0 then (1 : ℤ) else 0) ≤ 1 := by
      split_ifs <;> norm_num
    constructor
    · linarith [hit.2]
    · linarith [hit.1]
  case toward =>
    intro W P L s hW hs
    unfold round_half_toward_zero_sig
    refine legal_round_biased W P L s _ hW hs (fun hPL => ?_)
    simp only [if_neg (show ¬ (P ≥ L) by omega)]
    have hd := pow2_double (L - P) (by omega)
    have h1 := one_le_pow2 (L - P - 1)
    have hit : (0 : ℤ) ≤ (if s < 0 then (0 : ℤ) else 1)
        ∧ (if s < 0 then (0 : ℤ) else 1) ≤ 1 := by
      split_ifs <;> norm_num
    constructor
    · linarith [hit.2]
    · linarith [hit.1]
  case up =>
    intro W P L s hW hs
    unfold round_half_up_sig
    refine legal_round_biased W P L s _ hW hs (fun hPL => ?_)
    simp only [if_neg (show ¬ (P ≥ L) by omega)]
    have hd := pow2_double (L - P) (by omega)
    have h1 := one_le_pow2 (L - P - 1)
    constructor
    · linarith
    · linarith
  case down =>
    intro W P L s hW hs
    unfold round_half_down_sig
    refine legal_round_biased W P L s _ hW hs (fun hPL => ?_)
    simp only [if_neg (show ¬ (P ≥ L) by omega)]
    unfold MAX_SIGNIFICAND_VALUE
    have hd := pow2_double (L - P) (by omega)
    have h1 := one_le_pow2 (L - P - 1)
    constructor
    · linarith
    · linarith

/-- Witness for C6: source type `(8, 0)`, target LSB place `-2`,
significand 5. -/
theorem rounding_no_discard_when_coarser_witness :
    ceil_sig 0 (-2) 5 = 5 ∧ floor_sig 0 (-2) 5 = 5 ∧ trunc_sig 0 (-2) 5 = 5 ∧
    round_half_to_even_sig 0 (-2) 5 = 5 ∧
    round_half_away_from_zero_sig 0 (-2) 5 = 5 ∧
    round_half_toward_zero_sig 0 (-2) 5 = 5 ∧
    round_half_up_sig 0 (-2) 5 = 5 ∧
    round_half_down_sig 0 (-2) 5 = 5 ∧
    round_place 0 (-2) = 0 ∧ round_width 8 0 1 (-2) = 8 ∧
    round_width 8 0 0 (-2) = 8 ∧
    valueQ 5 (round_place 0 (-2)) = valueQ 5 0 :=
  rounding_no_discard_when_coarser 8 0 (-2) 5 (by norm_num)

/-- C5: claim theorem. At a value exactly halfway between two representable
neighbours `q` and `q + 1` at the target LSB place (significand
`2^k * q + 2^(k-1)` with `k` the shift), each tie-breaking rounding
function returns the neighbour its policy prescribes: half-to-even the
even neighbour, half-away-from-zero the neighbour away from zero,
half-toward-zero the neighbour toward zero, half-up the upper neighbour,
half-down the lower neighbour. -/
theorem rounding_midpoint_laws (P L q s : ℤ) (k : ℕ) (hk : 1 ≤ k)
    (hL : L = P + k) (hs : s = 2 ^ k * q + 2 ^ (k - 1)) :
    round_half_to_even_sig P L s = (if 2 ∣ q then q else q + 1) ∧
    round_half_away_from_zero_sig P L s = (if 0 ≤ q then q + 1 else q) ∧
    round_half_toward_zero_sig P L s = (if 0 ≤ q then q else q + 1) ∧
    round_half_up_sig P L s = q + 1 ∧
    round_half_down_sig P L s = q := by
  have hge : ¬ (P ≥ L) := by omega
  have hsplit := two_pow_split k hk
  have hpow_pos : (0 : ℤ) < 2 ^ (k - 1) := by positivity
  have hpow_pos2 : (0 : ℤ) < 2 ^ k := by positivity
  have hhalf : pow2 (L - P - 1) = 2 ^ (k - 1) := by
    rw [show L - P - 1 = (k : ℤ) - 1 by omega, pow2_coe_sub_one k hk]
  have hmaxk : MAX_SIGNIFICAND_VALUE (L - P) = 2 ^ (k - 1) - 1 := by
    unfold MAX_SIGNIFICAND_VALUE
    rw [show L - P - 1 = (k : ℤ) - 1 by omega, pow2_coe_sub_one k hk]
  have hfull : pow2 (L - P) = 2 ^ k := by
    rw [show L - P = (k : ℤ) by omega, pow2_coe]
  have hup : (2 ^ k * q + 2 ^ (k - 1) + 2 ^ (k - 1)) / 2 ^ k = q + 1 := by
    rw [show 2 ^ k * q + 2 ^ (k - 1) + 2 ^ (k - 1) = 2 ^ k * (q + 1) + 0 by
      rw [hsplit]; ring]
    exact ediv_two_pow_add k (q + 1) 0 le_rfl hpow_pos2
  have hdown : (2 ^ k * q + 2 ^ (k - 1) + (2 ^ (k - 1) - 1)) / 2 ^ k = q := by
    rw [show 2 ^ k * q + 2 ^ (k - 1) + (2 ^ (k - 1) - 1)
        = 2 ^ k * q + (2 ^ k - 1) by rw [hsplit]; ring]
    exact ediv_two_pow_add k q (2 ^ k - 1) (by omega) (by omega)
  have hsq : s / 2 ^ k = q := by
    rw [hs]
    exact ediv_two_pow_add k q (2 ^ (k - 1)) (by positivity) (by omega)
  have hsneg : s < 0 ↔ q < 0 := by
    constructor
    · intro hlt
      by_contra hq
      push_neg at hq
      have : 0 ≤ 2 ^ k * q := mul_nonneg (by positivity) hq
      omega
    · intro hq
      have : 2 ^ k * q ≤ 2 ^ k * (-1) :=
        mul_le_mul_of_nonneg_left (by omega) (by positivity)
      omega
  refine ⟨?_, ?_, ?_, ?_, ?_⟩
  · unfold round_half_to_even_sig
    rw [round_common_eval P L _ s k hk hL]
    simp only [if_neg hge, hmaxk, hfull, hsq]
    rcases Int.emod_two_eq q with hq | hq
    · have h1 : ¬ (q % 2 = 1) := by omega
      have h2 : (2 : ℤ) ∣ q := by omega
      rw [if_neg h1, if_pos h2]
      rw [show s + (2 ^ (k - 1) - 1) + 0
          = 2 ^ k * q + 2 ^ (k - 1) + (2 ^ (k - 1) - 1) by rw [hs]; ring]
      exact hdown
    · have h2 : ¬ ((2 : ℤ) ∣ q) := by omega
      rw [if_pos hq, if_neg h2]
      rw [show s + (2 ^ (k - 1) - 1) + 1
          = 2 ^ k * q + 2 ^ (k - 1) + 2 ^ (k - 1) by rw [hs]; ring]
      exact hup
  · unfold round_half_away_from_zero_sig
    rw [round_common_eval P L _ s k hk hL]
    simp only [if_neg hge, hhalf]
    by_cases hq : 0 ≤ q
    · have hsn : ¬ (s < 0) := by rw [hsneg]; omega
      rw [if_neg hsn, if_pos hq]
      rw [show s + 2 ^ (k - 1) - 0 = 2 ^ k * q + 2 ^ (k - 1) + 2 ^ (k - 1) by
        rw [hs]; ring]
      exact hup
    · have hsn : s < 0 := hsneg.mpr (by omega)
      rw [if_pos hsn, if_neg hq]
      rw [show s + 2 ^ (k - 1) - 1
          = 2 ^ k * q + 2 ^ (k - 1) + (2 ^ (k - 1) - 1) by rw [hs]; ring]
      exact hdown
  · unfold round_half_toward_zero_sig
    rw [round_common_eval P L _ s k hk hL]
    simp only [if_neg hge, hhalf]
    by_cases hq : 0 ≤ q
    · have hsn : ¬ (s < 0) := by rw [hsneg]; omega
      rw [if_neg hsn, if_pos hq]
      rw [show s + 2 ^ (k - 1) - 1
          = 2 ^ k * q + 2 ^ (k - 1) + (2 ^ (k - 1) - 1) by rw [hs]; ring]
      exact hdown
    · have hsn : s < 0 := hsneg.mpr (by omega)
      rw [if_pos hsn, if_neg hq]
      rw [show s + 2 ^ (k - 1) - 0 = 2 ^ k * q + 2 ^ (k - 1) + 2 ^ (k - 1) by
        rw [hs]; ring]
      exact hup
  · unfold round_half_up_sig
    rw [round_common_eval P L _ s k hk hL]
    simp only [if_neg hge, hhalf]
    rw [show s + 2 ^ (k - 1) = 2 ^ k * q + 2 ^ (k - 1) + 2 ^ (k - 1) by
      rw [hs]]
    exact hup
  · unfold round_half_down_sig
    rw [round_common_eval P L _ s k hk hL]
    simp only [if_neg hge, hmaxk]
    rw [show s + (2 ^ (k - 1) - 1)
        = 2 ^ k * q + 2 ^ (k - 1) + (2 ^ (k - 1) - 1) by rw [hs]]
    exact hdown

/-- Witness for C5: the value `2.5` (significand 5 at place -1, rounded
to place 0): half-to-even gives 2, half-away-from-zero 3,
half-toward-zero 2, half-up 3, half-down 2. -/
theorem rounding_midpoint_laws_witness :
    round_half_to_even_sig (-1) 0 5 = (if 2 ∣ (2 : ℤ) then 2 else 2 + 1) ∧
    round_half_away_from_zero_sig (-1) 0 5 = (if (0 : ℤ) ≤ 2 then 2 + 1 else 2) ∧
    round_half_toward_zero_sig (-1) 0 5 = (if (0 : ℤ) ≤ 2 then 2 else 2 + 1) ∧
    round_half_up_sig (-1) 0 5 = 2 + 1 ∧
    round_half_down_sig (-1) 0 5 = 2 :=
  rounding_midpoint_laws (-1) 0 2 5 1 (by norm_num) (by norm_num) (by norm_num)

/-- C7: claim theorem. For every accumulator in the legal `WIDTH1`-bit significand
range and every increment of width at most `WIDTH1`, `exact_adder`
returns the exact mathematical sum when that sum fits in `WIDTH1` bits as
a two's-complement value (`[-2^(W1-1), 2^(W1-1)-1]`), and raises the
overflow error (carrying no partial result) exactly when it does not. -/
theorem exact_adder_exact_or_overflow (W1 W2 acc inc : ℤ)
    (hW2 : 2 ≤ W2) (h21 : W2 ≤ W1) (hW1 : W1 ≤ 63)
    (hacc : legal W1 acc) (hinc : legal W2 inc) :
    exact_adder W1 acc inc
      = if -(pow2 (W1 - 1)) ≤ acc + inc ∧ acc + inc ≤ pow2 (W1 - 1) - 1
        then Except.ok (acc + inc)
        else Except.error "overflow" := by
  obtain ⟨k, hk, hk1, hk62⟩ : ∃ n : ℕ, W1 - 1 = (n : ℤ) ∧ 1 ≤ n ∧ n ≤ 62 :=
    ⟨(W1 - 1).toNat, by omega, by omega, by omega⟩
  have hp1 : pow2 (W1 - 1) = 2 ^ k := by rw [hk, pow2_coe]
  have hWk : (W1 - 1).toNat = k := by omega
  rw [hp1]
  simp only [exact_adder, hWk]
  set sum := acc + inc with hsum
  have hkk : (2 : ℤ) ^ (k + 1) = 2 * 2 ^ k := by rw [pow_succ]; ring
  have hkpos : (0 : ℤ) < 2 ^ k := by positivity
  have hkpn : (0 : ℕ) < 2 ^ k := by positivity
  have haccB : -(2 ^ k - 1) ≤ acc ∧ acc ≤ 2 ^ k - 1 := by
    have h := (legal_iff_abs W1 acc).mp hacc
    unfold MAX_SIGNIFICAND_VALUE at h
    rw [hp1] at h
    exact abs_le.mp h
  have hincB : -(2 ^ k - 1) ≤ inc ∧ inc ≤ 2 ^ k - 1 := by
    have h := (legal_iff_abs W2 inc).mp hinc
    unfold MAX_SIGNIFICAND_VALUE at h
    have hmono : pow2 (W2 - 1) ≤ pow2 (W1 - 1) := pow2_le_pow2 (by omega)
    rw [hp1] at hmono
    have h2 := abs_le.mp h
    exact ⟨by linarith [h2.1], by linarith [h2.2]⟩
  have hlo2 : -(2 ^ (k + 1)) < sum := by
    rw [hsum]
    linarith [haccB.1, hincB.1]
  have hhi2 : sum < 2 ^ (k + 1) := by
    rw [hsum]
    linarith [haccB.2, hincB.2]
  have hmnn : 0 ≤ sum % 2 ^ 64 := Int.emod_nonneg sum (by positivity)
  have hm : ((toU64 sum : ℕ) : ℤ) = sum % 2 ^ 64 := by
    unfold toU64
    exact Int.toNat_of_nonneg hmnn
  obtain ⟨hm64, hca, hcb, hcc, hcd⟩ :=
    rep_cases k sum (toU64 sum) hk1 hk62 hm hlo2 hhi2
  have hormask : 2 ^ 64 - 1 - (2 ^ k - 1) = 2 ^ 64 - 2 ^ k := by
    have h1 : (1 : ℕ) ≤ 2 ^ k := Nat.one_le_two_pow
    have h2 : (2 : ℕ) ^ k ≤ 2 ^ 62 := Nat.pow_le_pow_right (by norm_num) hk62
    have h3 : (2 : ℕ) ^ 62 < 2 ^ 64 := by norm_num
    omega
  rw [hormask]
  have handM := and_high_mask 64 k (toU64 sum) (by omega) hm64
  have hM_eq := high_mask_eq 64 k (by omega)
  have hq4 : 4 ≤ 2 ^ (64 - k) := by
    calc (4 : ℕ) = 2 ^ 2 := by norm_num
    _ ≤ 2 ^ (64 - k) := Nat.pow_le_pow_right (by norm_num) (by omega)
  by_cases h0 : 0 ≤ sum
  · by_cases hA : sum < 2 ^ k
    · obtain ⟨hdiv, _⟩ := hca ⟨h0, hA⟩
      have h1 : toU64 sum &&& (2 ^ 64 - 2 ^ k) = 0 := by
        rw [handM, hdiv, mul_zero]
      rw [if_neg (fun h => h.1 h1), if_pos ⟨by linarith, by linarith⟩]
    · push_neg at hA
      obtain ⟨hdiv, _⟩ := hcb hA
      have h1 : toU64 sum &&& (2 ^ 64 - 2 ^ k) = 2 ^ k := by
        rw [handM, hdiv, mul_one]
      have hne0 : toU64 sum &&& (2 ^ 64 - 2 ^ k) ≠ 0 := by
        rw [h1]
        positivity
      have hneM : toU64 sum &&& (2 ^ 64 - 2 ^ k) ≠ 2 ^ 64 - 2 ^ k := by
        rw [h1, hM_eq]
        intro he
        have he2 : (1 : ℕ) = 2 ^ (64 - k) - 1 :=
          Nat.eq_of_mul_eq_mul_left hkpn (by rw [mul_one]; exact he)
        omega
      rw [if_pos ⟨hne0, hneM⟩, if_neg (fun h => by linarith [h.2])]
  · push_neg at h0
    by_cases hC : -(2 ^ k) ≤ sum
    · obtain ⟨hdiv, _⟩ := hcc ⟨hC, h0⟩
      have h1 : toU64 sum &&& (2 ^ 64 - 2 ^ k) = 2 ^ 64 - 2 ^ k := by
        rw [handM, hdiv, ← hM_eq]
      rw [if_neg (fun h => h.2 h1), if_pos ⟨hC, by linarith⟩]
    · push_neg at hC
      obtain ⟨hdiv, _⟩ := hcd hC
      have h1 : toU64 sum &&& (2 ^ 64 - 2 ^ k)
          = 2 ^ k * (2 ^ (64 - k) - 2) := by
        rw [handM, hdiv]
      have hne0 : toU64 sum &&& (2 ^ 64 - 2 ^ k) ≠ 0 := by
        rw [h1]
        have h2 : 0 < 2 ^ (64 - k) - 2 := by omega
        positivity
      have hneM : toU64 sum &&& (2 ^ 64 - 2 ^ k) ≠ 2 ^ 64 - 2 ^ k := by
        rw [h1, hM_eq]
        intro he
        have := Nat.eq_of_mul_eq_mul_left hkpn he
        omega
      rw [if_pos ⟨hne0, hneM⟩, if_neg (fun h => by linarith [h.1])]

/-- Witness for C7: accumulator width 12, increment of type `(8, 0)`:
`exact_adder(2000, 50)` overflows with no partial result,
`exact_adder(100, 10)` returns the exact sum 110. -/
theorem exact_adder_exact_or_overflow_witness :
    exact_adder 12 2000 50 = Except.error "overflow" ∧
    exact_adder 12 100 10 = Except.ok 110 ∧
    exact_adder 12 2000 50
      = (if -(pow2 (12 - 1)) ≤ 2000 + 50 ∧ (2000 : ℤ) + 50 ≤ pow2 (12 - 1) - 1
         then Except.ok (2000 + 50)
         else Except.error "overflow") :=
  ⟨by rfl, by rfl,
   exact_adder_exact_or_overflow 12 8 2000 50 (by norm_num) (by norm_num)
     (by norm_num) (by decide) (by decide)⟩

/-- C8: claim theorem. `int_adder` returns the unique value congruent to
`accumulator + increment` modulo `2^WIDTH1` lying in
`[-2^(WIDTH1-1), 2^(WIDTH1-1)-1]` (two's-complement wraparound). -/
theorem int_adder_wraparound (W1 W2 acc inc : ℤ)
    (hW2 : 2 ≤ W2) (h21 : W2 ≤ W1) (hW1 : W1 ≤ 63)
    (hacc : -(pow2 (W1 - 1)) ≤ acc ∧ acc ≤ pow2 (W1 - 1) - 1)
    (hinc : legal W2 inc) :
    int_adder W1 acc inc % pow2 W1 = (acc + inc) % pow2 W1 ∧
    -(pow2 (W1 - 1)) ≤ int_adder W1 acc inc ∧
    int_adder W1 acc inc ≤ pow2 (W1 - 1) - 1 := by
  have hdbl : pow2 W1 = 2 * pow2 (W1 - 1) := pow2_double W1 (by omega)
  have hHpos := pow2_pos (W1 - 1)
  have hincB : -(pow2 (W1 - 1) - 1) ≤ inc ∧ inc ≤ pow2 (W1 - 1) - 1 := by
    have h := (legal_iff_abs W2 inc).mp hinc
    unfold MAX_SIGNIFICAND_VALUE at h
    have hmono : pow2 (W2 - 1) ≤ pow2 (W1 - 1) := pow2_le_pow2 (by omega)
    have h2 := abs_le.mp h
    exact ⟨by linarith [h2.1], by linarith [h2.2]⟩
  have hwrap := int_adder_eq_wrap W1 acc inc (by omega) hW1
    (by linarith [hacc.1, hincB.1]) (by linarith [hacc.2, hincB.2])
  rw [hwrap]
  have hMpos : 0 < pow2 W1 := pow2_pos W1
  have e1 : 0 ≤ (acc + inc + pow2 (W1 - 1)) % pow2 W1 :=
    Int.emod_nonneg _ (by linarith)
  have e2 : (acc + inc + pow2 (W1 - 1)) % pow2 W1 < pow2 W1 :=
    Int.emod_lt_of_pos _ hMpos
  refine ⟨?_, by linarith, by linarith⟩
  conv_rhs => rw [show acc + inc = acc + inc + pow2 (W1 - 1) - pow2 (W1 - 1)
    by ring]
  rw [Int.sub_emod (acc + inc + pow2 (W1 - 1)) (pow2 (W1 - 1)) (pow2 W1),
      Int.sub_emod ((acc + inc + pow2 (W1 - 1)) % pow2 W1) (pow2 (W1 - 1))
        (pow2 W1),
      Int.emod_emod_of_dvd _ dvd_rfl]

/-- Witness for C8: accumulator width 12, increment of type `(8, 0)`
holding significand 50: `int_adder(2000, 50)` wraps to -2046. -/
theorem int_adder_wraparound_witness :
    int_adder 12 2000 50 = -2046 ∧
    (int_adder 12 2000 50 % pow2 12 = (2000 + 50) % pow2 12 ∧
     -(pow2 (12 - 1)) ≤ int_adder 12 2000 50 ∧
     int_adder 12 2000 50 ≤ pow2 (12 - 1) - 1) :=
  ⟨by decide,
   int_adder_wraparound 12 8 2000 50 (by norm_num) (by norm_num)
     (by norm_num) (by decide) (by decide)⟩

/-- C10: claim theorem. `clamp_adder` always returns a value inside the legal
significand range `[-(2^(WIDTH1-1)-1), 2^(WIDTH1-1)-1]`; in particular it
never returns the two's-complement minimum `-2^(WIDTH1-1)`, so the result
is always a legal `FixedPoint<WIDTH1, place>` significand — while
`int_adder` can return exactly that minimum. -/
theorem clamp_adder_result_legal (W1 W2 acc inc : ℤ)
    (hW2 : 2 ≤ W2) (h21 : W2 ≤ W1) (hW1 : W1 ≤ 63)
    (hacc : legal W1 acc) (hinc : legal W2 inc) :
    legal W1 (clamp_adder W1 acc inc) ∧
    clamp_adder W1 acc inc ≠ -(pow2 (W1 - 1)) ∧
    legal W1 (-(pow2 (W1 - 1) - 1)) ∧ legal W2 (-1) ∧
    int_adder W1 (-(pow2 (W1 - 1) - 1)) (-1) = -(pow2 (W1 - 1)) := by
  have hHpos := pow2_pos (W1 - 1)
  have hdbl : pow2 W1 = 2 * pow2 (W1 - 1) := pow2_double W1 (by omega)
  have hleg : legal W1 (clamp_adder W1 acc inc) := by
    unfold clamp_adder
    exact legal_clamp W1 (acc + inc)
  have hW2pow : 2 ≤ pow2 (W2 - 1) := by
    have h := pow2_le_pow2 (show (1 : ℤ) ≤ W2 - 1 by omega)
    have : pow2 1 = 2 := rfl
    linarith
  refine ⟨hleg, ?_, ?_, ?_, ?_⟩
  · intro heq
    have h1 := hleg.1
    unfold MIN_SIGNIFICAND_VALUE MAX_SIGNIFICAND_VALUE at h1
    rw [heq] at h1
    linarith
  · unfold legal MIN_SIGNIFICAND_VALUE MAX_SIGNIFICAND_VALUE
    constructor <;> linarith
  · unfold legal MIN_SIGNIFICAND_VALUE MAX_SIGNIFICAND_VALUE
    constructor <;> linarith
  · have hwrap := int_adder_eq_wrap W1 (-(pow2 (W1 - 1) - 1)) (-1)
      (by omega) hW1 (by linarith) (by linarith)
    rw [hwrap, show -(pow2 (W1 - 1) - 1) + -1 + pow2 (W1 - 1) = 0 by ring,
        Int.zero_emod]
    ring

/-- Witness for C10: width-12 accumulator, width-8 increments:
`clamp_adder(2000, 50)` saturates at 2047, a legal significand. -/
theorem clamp_adder_result_legal_witness :
    clamp_adder 12 2000 50 = 2047 ∧
    (legal 12 (clamp_adder 12 2000 50) ∧
     clamp_adder 12 2000 50 ≠ -(pow2 (12 - 1)) ∧
     legal 12 (-(pow2 (12 - 1) - 1)) ∧ legal 8 (-1) ∧
     int_adder 12 (-(pow2 (12 - 1) - 1)) (-1) = -(pow2 (12 - 1))) :=
  ⟨by decide,
   clamp_adder_result_legal 12 8 2000 50 (by norm_num) (by norm_num)
     (by norm_num) (by decide) (by decide)⟩

end PrecCtrl
